import Mathlib

/-!
Shallow embedding of the vidgenai rendering pipeline
(backend/app/pipelines: subtitles.py, video.py, template.py) and proofs of
the specification claims about it.  Python floats are modelled as exact
rationals, Python strings as lists of characters, optional values as
Option, and raised exceptions as Except.  External process invocations
(ffprobe / ffmpeg / whisper) are modelled by passing their observable
result in as an explicit parameter.
-/

namespace VidGen

/-! ## Basic Python string helpers -/

/-- Characters treated as whitespace by Python str.strip / str.split /
the regex class backslash-s (space, tab, newline, carriage return,
vertical tab, form feed). -/
def isPySpace (c : Char) : Bool :=
  c = ' ' || c = '\t' || c = '\n' || c = '\r' || c = Char.ofNat 11 || c = Char.ofNat 12

/-- Python str.strip(): drop leading and trailing whitespace. -/
def pyStripWs (s : List Char) : List Char :=
  ((s.dropWhile isPySpace).reverse.dropWhile isPySpace).reverse

/-- Python str.lower(), restricted to the ASCII range that the pipeline
feeds it (language codes, template ids, sentinel words). -/
def pyLower (s : List Char) : List Char :=
  s.map Char.toLower

theorem length_dropWhile_le' {α : Type} (p : α → Bool) (l : List α) :
    (l.dropWhile p).length ≤ l.length := by
  induction l with
  | nil => simp [List.dropWhile]
  | cons a l ih =>
    by_cases h : p a
    · simp only [List.dropWhile, h]
      exact Nat.le_trans ih (Nat.le_succ _)
    · simp only [List.dropWhile, h]
      simp

/-- Scanner used by the regex-based tag removal: drop everything up to
and including the first occurrence of the closing character, returning
the remainder, or none when no closing character exists. -/
def takeAfterClose (cl : Char) : List Char → Option (List Char)
  | [] => none
  | c :: rest => if c = cl then some rest else takeAfterClose cl rest

theorem takeAfterClose_length {cl : Char} :
    ∀ {l r : List Char}, takeAfterClose cl l = some r → r.length < l.length := by
  intro l
  induction l with
  | nil => intro r h; simp [takeAfterClose] at h
  | cons c rest ih =>
    intro r h
    by_cases hc : c = cl
    · simp [takeAfterClose, hc] at h
      simp [← h, List.length_cons, Nat.lt_succ_self]
    · simp [takeAfterClose, hc] at h
      exact Nat.lt_trans (ih h) (Nat.lt_succ_self _)

/-- Embeds a Python re.sub removing delimited spans, i.e. the patterns
of subtitles.py: an opening character, a run of non-closing characters,
then the closing character, replaced by the empty string; an opening
character with no later closing character does not match and is kept.
Instantiated with square brackets in _clean_voiceover_text and with
braces in smart_wrap_with_tags. -/
def stripDelimited (op cl : Char) : List Char → List Char
  | [] => []
  | c :: rest =>
    if c = op then
      match h : takeAfterClose cl rest with
      | some rem => stripDelimited op cl rem
      | none => c :: stripDelimited op cl rest
    else c :: stripDelimited op cl rest
termination_by l => l.length
decreasing_by
  · exact Nat.lt_trans (takeAfterClose_length h) (Nat.lt_succ_self _)
  · exact Nat.lt_succ_self _
  · exact Nat.lt_succ_self _

/-- Embeds the whitespace-collapsing regex substitution of
_clean_voiceover_text: each maximal whitespace run becomes one space. -/
def collapseWs : List Char → List Char
  | [] => []
  | c :: rest =>
    if isPySpace c then ' ' :: collapseWs (rest.dropWhile isPySpace)
    else c :: collapseWs rest
termination_by l => l.length
decreasing_by
  · exact Nat.lt_succ_of_le (length_dropWhile_le' _ _)
  · exact Nat.lt_succ_self _

/-- Embeds subtitles.py _clean_voiceover_text: empty text stays empty,
otherwise bracketed tone markers are removed, the result is stripped,
and interior whitespace runs are collapsed to single spaces. -/
def clean_voiceover_text (text : List Char) : List Char :=
  if text = [] then []
  else collapseWs (pyStripWs (stripDelimited '[' ']' text))

/-- Python str.split() with no separator: split on whitespace runs,
discarding empty fields. -/
def splitPyWs : List Char → List (List Char)
  | [] => []
  | c :: rest =>
    if isPySpace c then splitPyWs rest
    else (c :: rest.takeWhile (fun d => !isPySpace d)) ::
      splitPyWs (rest.dropWhile (fun d => !isPySpace d))
termination_by l => l.length
decreasing_by
  · exact Nat.lt_succ_self _
  · exact Nat.lt_succ_of_le (length_dropWhile_le' _ _)

/-- The punctuation/whitespace characters stripped from token edges in
subtitles.py _tokenize; Char.ofNat 39 is the ASCII apostrophe. -/
def TOKEN_STRIP_CHARS : List Char :=
  [' ', '\t', '\n', '\r', ',', '.', ';', ':', '!', '?', '"', Char.ofNat 39,
   '“', '”', '‘', '’', '(', ')', '[', ']', '{', '}', '<', '>', '|', '—', '–', '-', '…', '।', '॥']

/-- Python str.strip(chars): drop the given characters from both ends. -/
def stripTokenChars (s : List Char) : List Char :=
  ((s.dropWhile (fun c => TOKEN_STRIP_CHARS.contains c)).reverse.dropWhile
    (fun c => TOKEN_STRIP_CHARS.contains c)).reverse

/-- Embeds subtitles.py _tokenize: whitespace-split the text, strip
punctuation from each token's edges, keep the non-empty results. -/
def tokenize (text : List Char) : List (List Char) :=
  if text = [] then []
  else (splitPyWs text).filterMap (fun tok =>
    let tok2 := stripTokenChars tok
    if tok2 = [] then none else some tok2)

/-- A word-timestamp record as produced by the subtitle pipeline;
the stop field embeds the Python dict key named end. -/
structure WordSeg where
  word : List Char
  start : ℚ
  stop : ℚ
deriving DecidableEq

/-- subtitles.py MIN_D = 0.06, the per-word minimum slice. -/
def MIN_D : ℚ := 3 / 50

/-- One iteration of the _approx_segments loop body, computing the end
of the segment that starts at t: the word's proportional duration (at
least MIN_D) is added to t, clamped to the audio duration, and a
degenerate end (end at or before start) is re-clamped to start plus
MIN_D, again bounded by the audio duration. -/
def approxStepEnd (audioDuration total t : ℚ) (w : List Char) : ℚ :=
  if min audioDuration (t + max MIN_D (audioDuration * (max 1 (w.length : ℚ) / total))) ≤ t
  then min audioDuration (t + MIN_D)
  else min audioDuration (t + max MIN_D (audioDuration * (max 1 (w.length : ℚ) / total)))

/-- The segment-building loop of _approx_segments: each word gets a
duration proportional to its weight (at least MIN_D), laid out
contiguously from time t, with ends computed by approxStepEnd. -/
def approxGo (audioDuration total : ℚ) : ℚ → List (List Char) → List WordSeg
  | _, [] => []
  | t, w :: ws =>
    ⟨w, t, approxStepEnd audioDuration total t w⟩ ::
      approxGo audioDuration total (approxStepEnd audioDuration total t w) ws

/-- The final statement of _approx_segments: the last segment's end is
raised to at least the audio duration. -/
def bumpLastEnd (audioDuration : ℚ) : List WordSeg → List WordSeg
  | [] => []
  | [s] => [⟨s.word, s.start, max s.stop audioDuration⟩]
  | s :: s2 :: rest => s :: bumpLastEnd audioDuration (s2 :: rest)

/-- The weight normalizer of _approx_segments: float(sum(weights)) with
the literal fallback 1.0 when the sum is falsy. -/
def approxTotal (words : List (List Char)) : ℚ :=
  if (((words.map (fun w => max 1 w.length)).sum : ℕ) : ℚ) = 0
  then 1
  else (((words.map (fun w => max 1 w.length)).sum : ℕ) : ℚ)

/-- Embeds subtitles.py _approx_segments (the Proportional Estimator):
clean and tokenize the expected text, return no segments for empty
tokenizations or non-positive durations, otherwise distribute the audio
duration over the words by character-length weight. -/
def approx_segments (expectedText : List Char) (audioDuration : ℚ) : List WordSeg :=
  if tokenize (clean_voiceover_text expectedText) = [] ∨ audioDuration ≤ 0 then []
  else
    bumpLastEnd audioDuration
      (approxGo audioDuration (approxTotal (tokenize (clean_voiceover_text expectedText)))
        0 (tokenize (clean_voiceover_text expectedText)))

/-- Embeds subtitles.py normalize_whisper_lang: falsy codes give None,
otherwise lower-case, strip, and keep only the part before a dash. -/
def normalize_whisper_lang (code : Option (List Char)) : Option (List Char) :=
  match code with
  | none => none
  | some s =>
    if s = [] then none
    else some ((pyStripWs (pyLower s)).takeWhile (fun c => !(c = '-')))

/-- The fixed regional-language set of subtitles.py line 13 (source
name: the REGIONAL prefix-set constant). -/
def REGIONAL_LANGS : List (List Char) :=
  ["hi".data, "mr".data, "bn".data, "ta".data, "te".data, "gu".data, "kn".data,
   "ml".data, "or".data, "pa".data, "ur".data, "as".data]

/-- Python truthiness of an optional string: present and non-empty. -/
def truthyStr : Option (List Char) → Bool
  | none => false
  | some s => decide (s ≠ [])

/-- Python truthiness of an optional number: present and non-zero. -/
def truthyNum : Option ℚ → Bool
  | none => false
  | some q => decide (q ≠ 0)

/-- The membership test lang_norm in REGIONAL... of subtitles.py line
53; a None normalized code is never a member. -/
def isRegionalLang (language : Option (List Char)) : Bool :=
  match normalize_whisper_lang language with
  | none => false
  | some c => REGIONAL_LANGS.contains c

/-- Embeds subtitles.py get_whisper_subtitles.  The external whisper
transcription is modelled by its word list providerOut; the Bool of the
result records whether that external provider was actually invoked
(false on the regional-language shortcut, which returns before the
whisper import).  The final fallback replaces provider results of fewer
than 3 words by the Proportional Estimator when expected text and a
truthy duration are available. -/
def get_whisper_subtitles (providerOut : List WordSeg)
    (language expectedText : Option (List Char)) (audioDuration : Option ℚ) :
    Bool × List WordSeg :=
  if truthyStr expectedText && truthyNum audioDuration && isRegionalLang language then
    (false, approx_segments (expectedText.getD []) (audioDuration.getD 0))
  else
    if truthyStr expectedText && truthyNum audioDuration && decide (providerOut.length < 3) then
      (true, approx_segments (expectedText.getD []) (audioDuration.getD 0))
    else
      (true, providerOut)

/-! ## video.py : get_audio_duration, zoom-direction choice -/

/-- Embeds video.py get_audio_duration.  The ffprobe child process is
modelled by its parsed stdout: some d on success, none when the probe
fails (ffprobe then writes nothing to stdout, and the code parses the
fallback literal zero).  The subprocess is run without check=True, so a
failing probe never raises. -/
def get_audio_duration (probed : Option ℚ) : ℚ :=
  match probed with
  | none => 0
  | some d => d

/-- video.py MAX_ZOOM = 1.08. -/
def MAX_ZOOM : ℚ := 27 / 25

/-- The two zoom candidates offered to random.choice in
combine_scene_with_animation: zoom in-to-out and out-to-in. -/
def zoomPairs : List (ℚ × ℚ) := [(1, MAX_ZOOM), (MAX_ZOOM, 1)]

/-- Embeds the zoom-direction selection of combine_scene_with_animation
(video.py line 38): random.choice reads the ambient state of the global,
never-seeded random module.  The project seed stored in the render state
(render.py line 91) is not a parameter of the computation at all, so the
choice is a function of the hidden global generator state only, modelled
here as the index the global generator yields. -/
def chooseZoomDirection (globalRandState : ℕ) : ℚ × ℚ :=
  zoomPairs.getD (globalRandState % zoomPairs.length) (1, 1)

/-! ## template.py : probes and BGM gain -/

/-- Failure of an ffprobe child process (non-zero exit raises
subprocess.CalledProcessError in the Python code). -/
inductive ProbeError where
  | probeFailed
deriving DecidableEq

/-- Embeds template.py ffprobe_duration: subprocess.check_output raises
on probe failure, so a failed probe propagates to the caller. -/
def ffprobe_duration (probed : Option ℚ) : Except ProbeError ℚ :=
  match probed with
  | none => Except.error ProbeError.probeFailed
  | some d => Except.ok d

/-- Embeds template.py ffprobe_has_audio: the probe runs inside
try/except, any failure yields False; on success the stripped stdout is
converted to a truth value. -/
def ffprobe_has_audio (probed : Option (List Char)) : Bool :=
  match probed with
  | none => false
  | some out => decide (pyStripWs out ≠ [])

/-- Embeds the gain computation of template.py
mix_bgm_into_video_inplace (lines 115-117): try float(volume) with
default 0.12 on parse failure, then clamp into the interval from 0 to 2.
The parse outcome is modelled as an Option. -/
def mixBgmVolume (volume : Option ℚ) : ℚ :=
  let vol : ℚ :=
    match volume with
    | some v => v
    | none => 12 / 100
  max 0 (min vol 2)

/-! ## video.py : stitch_final_video filter graph -/

/-- video.py TRANSITION_DURATION = 1.0. -/
def TRANSITION_DURATION : ℚ := 1

/-- The xfade-emitting loop of stitch_final_video (lines 124-130): for
each join an xfade of the fixed transition duration is emitted at
offset cumulative minus the transition duration, and cumulative then
advances by scene_durations[i] when that index exists.  The argument i
is the loop index, the final argument counts the joins still to emit. -/
def xfadeGo (durs : List ℚ) : ℚ → ℕ → ℕ → List (ℚ × ℚ)
  | _, _, 0 => []
  | cumulative, i, k + 1 =>
    (TRANSITION_DURATION, cumulative - TRANSITION_DURATION) ::
      xfadeGo durs
        (if h : i < durs.length then cumulative + durs.get ⟨i, h⟩ else cumulative)
        (i + 1) k

/-- The observable structure of the filter graph stitch_final_video
builds for several clips: the (duration, offset) of each consecutive
video crossfade in join order, the per-clip audio trim end times, and
the number of trimmed audio streams fed to the final concat. -/
structure StitchFilter where
  xfades : List (ℚ × ℚ)
  atrims : List ℚ
  concatN : ℕ
deriving DecidableEq

/-- Embeds the multi-clip filter-graph construction of
stitch_final_video (video.py lines 116-138): cumulative starts at
scene_durations[0] (0.0 when the list is empty), one xfade joins each
consecutive clip pair, and each clip's audio is trimmed to its own
duration (fallback 5.0 when missing) before the audio concat. -/
def buildStitchFilter (numClips : ℕ) (durs : List ℚ) : StitchFilter :=
  { xfades := xfadeGo durs (durs.headD 0) 1 (numClips - 1)
    atrims := (List.range numClips).map
      (fun i => if h : i < durs.length then durs.get ⟨i, h⟩ else 5)
    concatN := numClips }

/-! ## subtitles.py : generate_combined_ass_subtitles event timing -/

/-- The start/end computation for one word caption event of
generate_combined_ass_subtitles (lines 130-132): global start is the
scene offset plus the word start, global end is the offset plus the
given scene-relative end, and a degenerate end is forced to
start + 0.1. -/
def mkEvTimes (offset s e : ℚ) : ℚ × ℚ :=
  (offset + s, if offset + e ≤ offset + s then offset + s + 1 / 10 else offset + e)

/-- The per-word event loop of generate_combined_ass_subtitles: each
word event ends at the next word's start, the final word event ends at
the scene's clamped last end. -/
def wordEventTimes (offset lastEnd : ℚ) : List WordSeg → List (ℚ × ℚ)
  | [] => []
  | [w] => [mkEvTimes offset w.start lastEnd]
  | w :: w2 :: rest => mkEvTimes offset w.start w2.start :: wordEventTimes offset lastEnd (w2 :: rest)

/-- All caption event times one scene contributes: the optional lead-in
event when the first word starts later than 0.1, followed by the word
events, with last_end = max(last segment end, scene duration). -/
def sceneEventTimes (segs : List WordSeg) (dur offset : ℚ) : List (ℚ × ℚ) :=
  match segs with
  | [] => []
  | s0 :: rest =>
    (if 1 / 10 < s0.start then [(offset, offset + s0.start)] else []) ++
      wordEventTimes offset (max (rest.getLast?.getD s0).stop dur) (s0 :: rest)

/-- The scene loop of generate_combined_ass_subtitles: the global
offset starts at 0 and advances by each scene's duration (fallback 5.0
when the durations list is exhausted) whether or not the scene
contributed events. -/
def combinedGo : ℚ → List (List WordSeg) → List ℚ → List (ℚ × ℚ)
  | _, [], _ => []
  | offset, segs :: restScenes, durs =>
    sceneEventTimes segs (durs.headD 5) offset ++
      combinedGo (offset + durs.headD 5) restScenes durs.tail

/-- Embeds the event-timing content of
generate_combined_ass_subtitles (subtitles.py lines 112-143): the
ordered global (start, end) times of every emitted Dialogue event.  The
fixed style header and the rendered text of each event do not affect
the timing claims. -/
def generateCombinedEvents (allWordSegments : List (List WordSeg))
    (sceneDurations : List ℚ) : List (ℚ × ℚ) :=
  combinedGo 0 allWordSegments sceneDurations

/-- The effective duration of scene i as the Caption Builder reads it:
the given duration when present, else the fallback 5.0. -/
def effDur (durs : List ℚ) (i : ℕ) : ℚ :=
  if h : i < durs.length then durs.get ⟨i, h⟩ else 5

/-- Sum of the effective durations of scenes 0..k-1. -/
def offsetSum (durs : List ℚ) (k : ℕ) : ℚ :=
  ((List.range k).map (effDur durs)).sum

/-! ## template.py : apply_template_from_state dispatch -/

/-- template.py SUPPORTED_TEMPLATES keys. -/
def SUPPORTED_TEMPLATES : List (List Char) :=
  ["t0".data, "t1".data, "t2".data, "t3".data, "t4".data, "t5".data, "t6".data,
   "t7".data, "t9".data]

/-- The configuration errors apply_template_from_state raises before
invoking any transcoder subprocess (Python ValueError). -/
inductive TemplateError where
  | unknownTemplate (id : List Char)
  | missingGameplay (id : List Char)
  | missingAiVideo (id : List Char)
deriving DecidableEq

/-- The effectful steps apply_template_from_state performs after its
configuration checks pass, in order. -/
inductive TCall where
  | concatAudio
  | template9Main
  | copyAiVideo
  | applySplitTemplate (id : List Char)
  | mixBgm
deriving DecidableEq

/-- The template-relevant fields of the render state dict. -/
structure TState where
  template_id : Option (List Char)
  gameplay_video_path : Option (List Char)
  ai_video_path : Option (List Char)
  background_music_path : Option (List Char)

/-- template.py line 192: str(state.get(template_id-key) or t0).strip();
a missing or falsy (empty) template id falls back to t0. -/
def templateIdOf (st : TState) : List Char :=
  pyStripWs (match st.template_id with
    | none => "t0".data
    | some s => if s = [] then "t0".data else s)

/-- template.py lines 206-207: background music is used when the path
is truthy and its stripped lower-case form is not a null sentinel. -/
def bgmRequested (st : TState) : Bool :=
  match st.background_music_path with
  | none => false
  | some bp =>
    if bp = [] then false
    else decide (pyLower (pyStripWs bp) ∉
      [([] : List Char), "none".data, "null".data, "string".data])

/-- Embeds the dispatch and configuration checks of template.py
apply_template_from_state (lines 189-265).  An error value models the
Python ValueError raised before any transcoder subprocess runs; an ok
value lists the transcoder/copy/mix steps that would then run, in
order. -/
def apply_template_from_state (st : TState) : Except TemplateError (List TCall) :=
  if templateIdOf st ∉ SUPPORTED_TEMPLATES then
    Except.error (TemplateError.unknownTemplate (templateIdOf st))
  else if templateIdOf st = "t9".data then
    if pyStripWs (st.gameplay_video_path.getD []) = [] then
      Except.error (TemplateError.missingGameplay (templateIdOf st))
    else
      Except.ok ([TCall.concatAudio, TCall.template9Main] ++
        if bgmRequested st then [TCall.mixBgm] else [])
  else if templateIdOf st = "t0".data then
    if pyStripWs (st.ai_video_path.getD []) = [] then
      Except.error (TemplateError.missingAiVideo (templateIdOf st))
    else
      Except.ok (TCall.copyAiVideo ::
        if bgmRequested st then [TCall.mixBgm] else [])
  else
    if pyStripWs (st.gameplay_video_path.getD []) = [] then
      Except.error (TemplateError.missingGameplay (templateIdOf st))
    else if pyStripWs (st.ai_video_path.getD []) = [] then
      Except.error (TemplateError.missingAiVideo (templateIdOf st))
    else
      Except.ok (TCall.applySplitTemplate (templateIdOf st) ::
        if bgmRequested st then [TCall.mixBgm] else [])

/-! ## subtitles.py : smart_wrap_with_tags and the ASS line-break marker -/

/-- Python text.split(single-space): split at every space character,
keeping empty fields (so join with a single space is its inverse). -/
def splitSp : List Char → List (List Char)
  | [] => [[]]
  | c :: rest =>
    if c = ' ' then [] :: splitSp rest
    else
      match splitSp rest with
      | [] => [[c]]
      | p :: ps => (c :: p) :: ps

/-- Python single-space join of a list of strings. -/
def spJoin : List (List Char) → List Char
  | [] => []
  | [l] => l
  | l :: l2 :: ls => l ++ ' ' :: spJoin (l2 :: ls)

/-- Joining wrapped lines with the two-character ASS line-break marker
(backslash N), as the final statement of smart_wrap_with_tags does. -/
def nlJoin : List (List Char) → List Char
  | [] => []
  | [l] => l
  | l :: l2 :: ls => l ++ '\\' :: 'N' :: nlJoin (l2 :: ls)

/-- Whether the two-character line-break marker occurs in a string. -/
def hasNL : List Char → Bool
  | a :: b :: t => (a = '\\' && b = 'N') || hasNL (b :: t)
  | _ => false

/-- Python str.replace of the line-break marker by one space: scan left
to right, replacing each non-overlapping occurrence. -/
def pyReplaceNL : List Char → List Char
  | a :: b :: t =>
    if a = '\\' ∧ b = 'N' then ' ' :: pyReplaceNL t else a :: pyReplaceNL (b :: t)
  | l => l

/-- The greedy line-filling loop of smart_wrap_with_tags: parts are
accumulated into the current line while the visible width (style tags
in braces removed) fits, otherwise the current line is flushed and a
new line starts; a part always enters an empty current line. -/
def wrapGo (maxWidth : ℕ) :
    List (List Char) → List (List Char) → ℕ → List (List Char) → List (List Char)
  | lines, cur, _, [] => if cur = [] then lines else lines ++ [spJoin cur]
  | lines, cur, curLen, part :: parts =>
    if curLen + (stripDelimited '{' '}' part).length + 1 ≤ maxWidth ∨ cur = [] then
      wrapGo maxWidth lines (cur ++ [part])
        (curLen + (stripDelimited '{' '}' part).length + 1) parts
    else
      wrapGo maxWidth (lines ++ [spJoin cur]) [part]
        ((stripDelimited '{' '}' part).length + 1) parts

/-- Embeds subtitles.py smart_wrap_with_tags (lines 80-92): split on
single spaces, fill lines greedily by visible width, join the lines
with the ASS line-break marker. -/
def smart_wrap_with_tags (text : List Char) (maxWidth : ℕ) : List Char :=
  nlJoin (wrapGo maxWidth [] [] 0 (splitSp text))

/-! ## Theorems for claims C6, C7, C8 -/

/-- C6: the per-scene zoom-direction choice is drawn from the unseeded
global random module, so it is not a function of the project seed: two
runs with identical seeds and inputs but different ambient global
generator states pick different zoom directions.  This refutes
seed-determinism and confirms the code contradicts the spec's
requirement of an explicitly seeded generator. -/
theorem zoom_choice_not_seed_determined :
    ∃ g₁ g₂ : ℕ, chooseZoomDirection g₁ ≠ chooseZoomDirection g₂ := by
  refine ⟨0, 1, ?_⟩
  have h0 : chooseZoomDirection 0 = (1, MAX_ZOOM) := rfl
  have h1 : chooseZoomDirection 1 = (MAX_ZOOM, 1) := rfl
  rw [h0, h1]
  intro h
  have : (1 : ℚ) = MAX_ZOOM := congrArg Prod.fst h
  rw [MAX_ZOOM] at this
  norm_num at this

/-- C7 counterexample: the duration probe of the Template Compositor
(template.py ffprobe_duration) propagates a probe failure to its caller
as a hard error instead of degrading it to duration 0, refuting the
claim that no probing site ever propagates a failure. -/
theorem ffprobe_duration_propagates :
    ffprobe_duration none = Except.error ProbeError.probeFailed := rfl

/-- C7 amended: a failed duration probe in video.py get_audio_duration
degrades to 0 and a failed audio-presence probe degrades to false, but
template.py ffprobe_duration propagates the failure as an error. -/
theorem probe_failure_handling :
    get_audio_duration none = 0 ∧
    ffprobe_has_audio none = false ∧
    ffprobe_duration none = Except.error ProbeError.probeFailed :=
  ⟨rfl, rfl, rfl⟩

/-- C8: a parseable background-music gain g is clamped to
max 0 (min g 2) — never rejected, never replaced by the default — and an
unparseable gain gets the default 0.12. -/
theorem bgm_gain_clamped :
    (∀ g : ℚ, mixBgmVolume (some g) = max 0 (min g 2)) ∧
    mixBgmVolume none = 12 / 100 :=
  ⟨fun _ => rfl, by norm_num [mixBgmVolume]⟩

/-! ## Lemmas and theorems for C2 (Proportional Estimator invariants) -/

theorem approxStepEnd_le_dur (dur total t : ℚ) (w : List Char) :
    approxStepEnd dur total t w ≤ dur := by
  unfold approxStepEnd
  split
  · exact min_le_left _ _
  · exact min_le_left _ _

theorem le_approxStepEnd (dur total t : ℚ) (w : List Char) (ht : t ≤ dur) :
    t ≤ approxStepEnd dur total t w := by
  unfold approxStepEnd
  split
  · refine le_min ht ?_
    have : (0 : ℚ) ≤ MIN_D := by norm_num [MIN_D]
    linarith
  · next h => exact le_of_lt (lt_of_not_ge h)

theorem approxGo_inv (dur total : ℚ) (words : List (List Char)) :
    ∀ (t : ℚ), t ≤ dur →
      (∀ s ∈ approxGo dur total t words, t ≤ s.start ∧ s.start ≤ s.stop ∧ s.stop ≤ dur) ∧
      List.Chain' (fun a b => a.stop = b.start) (approxGo dur total t words) ∧
      (∀ s, (approxGo dur total t words).head? = some s → s.start = t) := by
  induction words with
  | nil => intro t _; simp [approxGo]
  | cons w ws ih =>
    intro t ht
    have hte : t ≤ approxStepEnd dur total t w := le_approxStepEnd dur total t w ht
    have hed : approxStepEnd dur total t w ≤ dur := approxStepEnd_le_dur dur total t w
    obtain ⟨hmem, hchain, hhead⟩ := ih (approxStepEnd dur total t w) hed
    refine ⟨?_, ?_, ?_⟩
    · intro s hs
      simp only [approxGo, List.mem_cons] at hs
      rcases hs with rfl | hs
      · exact ⟨le_refl _, hte, hed⟩
      · obtain ⟨h1, h2, h3⟩ := hmem s hs
        exact ⟨le_trans hte h1, h2, h3⟩
    · simp only [approxGo]
      rw [List.chain'_cons']
      refine ⟨?_, hchain⟩
      intro b hb
      exact (hhead b hb).symm
    · intro s hs
      simp only [approxGo, List.head?_cons, Option.some.injEq] at hs
      rw [← hs]

theorem approxGo_ne_nil (dur total t : ℚ) (w : List Char) (ws : List (List Char)) :
    approxGo dur total t (w :: ws) ≠ [] := by
  simp [approxGo]

theorem bumpLastEnd_ne_nil (dur : ℚ) (l : List WordSeg) (h : l ≠ []) :
    bumpLastEnd dur l ≠ [] := by
  match l with
  | [] => exact absurd rfl h
  | [s] => simp [bumpLastEnd]
  | s :: s2 :: rest => simp [bumpLastEnd]

theorem bumpLastEnd_mem (dur : ℚ) :
    ∀ l : List WordSeg, (∀ s ∈ l, s.start ≤ s.stop ∧ s.stop ≤ dur) →
      ∀ s ∈ bumpLastEnd dur l, s.start ≤ s.stop ∧ s.stop ≤ dur := by
  intro l
  induction l with
  | nil => intro _ s hs; simp [bumpLastEnd] at hs
  | cons a l ih =>
    intro hl s hs
    match l, hs with
    | [], hs =>
      simp only [bumpLastEnd, List.mem_singleton] at hs
      subst hs
      obtain ⟨h1, h2⟩ := hl a (by simp)
      constructor
      · exact le_trans h1 (le_max_left _ _)
      · exact max_le h2 (le_refl _)
    | b :: m, hs =>
      simp only [bumpLastEnd, List.mem_cons] at hs
      rcases hs with rfl | hs
      · exact hl s (by simp)
      · exact ih (fun x hx => hl x (List.mem_cons_of_mem _ hx)) s hs

theorem bumpLastEnd_head_start (dur : ℚ) (a : WordSeg) (l : List WordSeg) :
    ∃ a', (bumpLastEnd dur (a :: l)).head? = some a' ∧ a'.start = a.start := by
  match l with
  | [] => exact ⟨_, rfl, rfl⟩
  | b :: m => exact ⟨a, rfl, rfl⟩

theorem bumpLastEnd_chain (dur : ℚ) :
    ∀ l : List WordSeg, List.Chain' (fun a b => a.stop = b.start) l →
      List.Chain' (fun a b => a.stop ≤ b.start) (bumpLastEnd dur l) := by
  intro l
  induction l with
  | nil => intro _; simp [bumpLastEnd]
  | cons a l ih =>
    intro hl
    rw [List.chain'_cons'] at hl
    obtain ⟨hrel, htail⟩ := hl
    match l with
    | [] => simp [bumpLastEnd]
    | b :: m =>
      simp only [bumpLastEnd]
      rw [List.chain'_cons']
      refine ⟨?_, ih htail⟩
      intro c hc
      obtain ⟨a', ha', hstart⟩ := bumpLastEnd_head_start dur b m
      rw [ha'] at hc
      simp only [Option.mem_def, Option.some.injEq] at hc
      subst hc
      rw [hstart]
      exact le_of_eq (hrel b (by simp))

theorem bumpLastEnd_last (dur : ℚ) :
    ∀ l : List WordSeg, l ≠ [] → (∀ s ∈ l, s.stop ≤ dur) →
      ∃ last, (bumpLastEnd dur l).getLast? = some last ∧ last.stop = dur := by
  intro l
  induction l with
  | nil => intro h _; exact absurd rfl h
  | cons a l ih =>
    intro _ hle
    match l with
    | [] =>
      refine ⟨⟨a.word, a.start, max a.stop dur⟩, ?_, ?_⟩
      · rfl
      · exact max_eq_right (hle a (by simp))
    | b :: m =>
      obtain ⟨last, hlast, hstop⟩ :=
        ih (by simp) (fun x hx => hle x (List.mem_cons_of_mem _ hx))
      refine ⟨last, ?_, hstop⟩
      simp only [bumpLastEnd]
      cases hcase : bumpLastEnd dur (b :: m) with
      | nil => exact absurd hcase (bumpLastEnd_ne_nil dur (b :: m) (by simp))
      | cons x xs =>
        rw [hcase] at hlast
        rw [List.getLast?_cons_cons]
        exact hlast

theorem approxCoreProps (dur total : ℚ) (words : List (List Char))
    (hw : words ≠ []) (hd : 0 < dur) :
    bumpLastEnd dur (approxGo dur total 0 words) ≠ [] ∧
    (∀ s ∈ bumpLastEnd dur (approxGo dur total 0 words), s.start ≤ s.stop ∧ s.stop ≤ dur) ∧
    List.Chain' (fun a b => a.stop ≤ b.start) (bumpLastEnd dur (approxGo dur total 0 words)) ∧
    (∃ last, (bumpLastEnd dur (approxGo dur total 0 words)).getLast? = some last ∧
      last.stop = dur) := by
  obtain ⟨hmem, hchain, _⟩ := approxGo_inv dur total words 0 (le_of_lt hd)
  have hmem' : ∀ s ∈ approxGo dur total 0 words, s.start ≤ s.stop ∧ s.stop ≤ dur :=
    fun s hs => ⟨(hmem s hs).2.1, (hmem s hs).2.2⟩
  have hgne : approxGo dur total 0 words ≠ [] := by
    cases words with
    | nil => exact absurd rfl hw
    | cons w ws => exact approxGo_ne_nil dur total 0 w ws
  refine ⟨bumpLastEnd_ne_nil dur _ hgne, bumpLastEnd_mem dur _ hmem', ?_, ?_⟩
  · exact bumpLastEnd_chain dur _ hchain
  · exact bumpLastEnd_last dur _ hgne (fun s hs => (hmem' s hs).2)

/-- C2 amended: for every expected text with non-empty tokenization and
every positive audio duration, the Proportional Estimator's segments
are non-empty, each satisfies start ≤ end with end bounded by the audio
duration, consecutive segments do not overlap (each end is at most the
next start, so they are ordered), and the final segment's end equals
the audio duration. -/
theorem approx_segments_invariants (text : List Char) (dur : ℚ)
    (hw : tokenize (clean_voiceover_text text) ≠ []) (hd : 0 < dur) :
    approx_segments text dur ≠ [] ∧
    (∀ s ∈ approx_segments text dur, s.start ≤ s.stop ∧ s.stop ≤ dur) ∧
    List.Chain' (fun a b => a.stop ≤ b.start) (approx_segments text dur) ∧
    (∃ last, (approx_segments text dur).getLast? = some last ∧ last.stop = dur) := by
  have hcond : ¬ (tokenize (clean_voiceover_text text) = [] ∨ dur ≤ 0) := by
    push_neg
    exact ⟨hw, hd⟩
  unfold approx_segments
  rw [if_neg hcond]
  exact approxCoreProps dur _ _ hw hd

/-- C2 witness: the amended invariants hold at the concrete expected
text hi with audio duration 2. -/
theorem approx_segments_invariants_witness :
    tokenize (clean_voiceover_text ['h', 'i']) ≠ [] ∧ (0 : ℚ) < 2 ∧
    (approx_segments ['h', 'i'] 2 ≠ [] ∧
      (∀ s ∈ approx_segments ['h', 'i'] 2, s.start ≤ s.stop ∧ s.stop ≤ 2) ∧
      List.Chain' (fun a b => a.stop ≤ b.start) (approx_segments ['h', 'i'] 2) ∧
      (∃ last, (approx_segments ['h', 'i'] 2).getLast? = some last ∧ last.stop = 2)) := by
  have hw : tokenize (clean_voiceover_text ['h', 'i']) ≠ [] := by
    have heq : tokenize (clean_voiceover_text ['h', 'i']) = [['h', 'i']] := by
      simp [tokenize, clean_voiceover_text, stripDelimited, takeAfterClose, collapseWs,
        pyStripWs, splitPyWs, stripTokenChars, TOKEN_STRIP_CHARS, isPySpace,
        List.dropWhile, List.takeWhile]
    rw [heq]
    simp
  exact ⟨hw, by norm_num, approx_segments_invariants ['h', 'i'] 2 hw (by norm_num)⟩

/-- C2 counterexample: at expected text a b and audio duration 0.06 the
tokenization is non-empty and the duration is positive, yet the second
produced segment has start equal to end, refuting the claimed strict
inequality start < end. -/
theorem approx_segments_strict_cex :
    tokenize (clean_voiceover_text ['a', ' ', 'b']) ≠ [] ∧ (0 : ℚ) < 3 / 50 ∧
    ¬ (∀ s ∈ approx_segments ['a', ' ', 'b'] (3 / 50), s.start < s.stop) := by
  have htok : tokenize (clean_voiceover_text ['a', ' ', 'b']) = [['a'], ['b']] := by
    simp [tokenize, clean_voiceover_text, stripDelimited, takeAfterClose, collapseWs,
      pyStripWs, splitPyWs, stripTokenChars, TOKEN_STRIP_CHARS, isPySpace,
      List.dropWhile, List.takeWhile]
  have heval : approx_segments ['a', ' ', 'b'] (3 / 50) =
      [⟨['a'], 0, 3 / 50⟩, ⟨['b'], 3 / 50, 3 / 50⟩] := by
    unfold approx_segments
    rw [htok]
    rw [if_neg (by simp)]
    norm_num [approxGo, approxStepEnd, approxTotal, bumpLastEnd, MIN_D]
  refine ⟨by rw [htok]; simp, by norm_num, ?_⟩
  intro hall
  have := hall ⟨['b'], 3 / 50, 3 / 50⟩ (by rw [heval]; simp)
  simp at this

/-! ## Theorems for C3 (Subtitle Timing Engine dispatch) -/

/-- C3: the external provider is skipped exactly when expected text, a
truthy (non-zero) duration, and a regional normalized language hint are
all present (first conjunct, with the Bool in the result recording
whether the provider ran); in that case the result is the Proportional
Estimator's. Otherwise the provider runs, its result is replaced by the
estimator exactly when it has fewer than 3 words and text/duration are
available, and is returned unchanged when it has at least 3 words or
text/duration are unavailable. -/
theorem whisper_dispatch (providerOut : List WordSeg)
    (language expectedText : Option (List Char)) (audioDuration : Option ℚ) :
    ((get_whisper_subtitles providerOut language expectedText audioDuration).1 = false ↔
      truthyStr expectedText = true ∧ truthyNum audioDuration = true ∧
      isRegionalLang language = true) ∧
    ((get_whisper_subtitles providerOut language expectedText audioDuration).1 = false →
      (get_whisper_subtitles providerOut language expectedText audioDuration).2 =
        approx_segments (expectedText.getD []) (audioDuration.getD 0)) ∧
    (isRegionalLang language = false → truthyStr expectedText = true →
      truthyNum audioDuration = true → providerOut.length < 3 →
      get_whisper_subtitles providerOut language expectedText audioDuration =
        (true, approx_segments (expectedText.getD []) (audioDuration.getD 0))) ∧
    (isRegionalLang language = false → 3 ≤ providerOut.length →
      get_whisper_subtitles providerOut language expectedText audioDuration =
        (true, providerOut)) ∧
    ((truthyStr expectedText = false ∨ truthyNum audioDuration = false) →
      get_whisper_subtitles providerOut language expectedText audioDuration =
        (true, providerOut)) := by
  unfold get_whisper_subtitles
  by_cases h1 : truthyStr expectedText = true <;>
    by_cases h2 : truthyNum audioDuration = true <;>
      by_cases h3 : isRegionalLang language = true <;>
        by_cases h4 : providerOut.length < 3 <;>
          simp [h1, h2, h3, h4]

/-- C3 witness: with a regional language hint hi, expected text, and a
non-zero duration, the provider is skipped. -/
theorem whisper_dispatch_witness :
    (get_whisper_subtitles [] (some ['h', 'i']) (some ['h', 'i']) (some 2)).1 = false :=
  (whisper_dispatch [] (some ['h', 'i']) (some ['h', 'i']) (some 2)).1.mpr
    (by
      refine ⟨by decide, by norm_num [truthyNum], ?_⟩
      simp [isRegionalLang, normalize_whisper_lang, pyStripWs, pyLower,
        REGIONAL_LANGS, isPySpace, List.dropWhile, List.takeWhile, Char.toLower])

/-! ## Theorems for C4 (Timeline Stitcher filter graph) -/

theorem xfadeGo_length (durs : List ℚ) :
    ∀ (k i : ℕ) (c : ℚ), (xfadeGo durs c i k).length = k := by
  intro k
  induction k with
  | zero => intro i c; simp [xfadeGo]
  | succ k ih => intro i c; simp [xfadeGo, ih]

theorem xfadeGo_get? (durs : List ℚ) :
    ∀ (k i : ℕ) (c : ℚ) (j : ℕ), j < k → i + k ≤ durs.length →
      (xfadeGo durs c i k).get? j =
        some (TRANSITION_DURATION,
          c + ((durs.drop i).take j).sum - TRANSITION_DURATION) := by
  intro k
  induction k with
  | zero => intro i c j hj _; exact absurd hj (Nat.not_lt_zero j)
  | succ k ih =>
    intro i c j hj hik
    have hi : i < durs.length := by omega
    cases j with
    | zero =>
      simp only [xfadeGo, List.get?_cons_zero, List.take_zero, List.sum_nil, Option.some.injEq]
      rw [Prod.mk.injEq]
      exact ⟨rfl, by ring⟩
    | succ j =>
      have hstep : (xfadeGo durs c i (k + 1)).get? (j + 1) =
          (xfadeGo durs (c + durs.get ⟨i, hi⟩) (i + 1) k).get? j := by
        simp only [xfadeGo, List.get?_cons_succ, dif_pos hi]
      rw [hstep, ih (i + 1) _ j (by omega) (by omega)]
      congr 2
      rw [List.drop_eq_getElem_cons hi, List.take_succ_cons, List.sum_cons]
      simp only [List.get_eq_getElem]
      ring

theorem stitch_atrims_eq (durs : List ℚ) :
    (buildStitchFilter durs.length durs).atrims = durs := by
  unfold buildStitchFilter
  apply List.ext_get
  · simp
  · intro n h1 h2
    simp only [List.get_eq_getElem, List.getElem_map, List.getElem_range]
    rw [dif_pos h2]

/-- C4: for n ≥ 2 clips whose durations list matches, the filter graph
has one crossfade per consecutive pair, the j-th crossfade (joining
clips j+1 and j+2, 1-based) has the fixed transition duration and
timeline offset (d_1 + ... + d_(j+1)) - TRANSITION_DURATION, each
clip's audio is trimmed to exactly its own duration, and all n trimmed
audio streams are concatenated. -/
theorem stitch_filter_graph (durs : List ℚ) (h2 : 2 ≤ durs.length) :
    (buildStitchFilter durs.length durs).xfades.length = durs.length - 1 ∧
    (∀ j, j < durs.length - 1 →
      (buildStitchFilter durs.length durs).xfades.get? j =
        some (TRANSITION_DURATION, (durs.take (j + 1)).sum - TRANSITION_DURATION)) ∧
    (buildStitchFilter durs.length durs).atrims = durs ∧
    (buildStitchFilter durs.length durs).concatN = durs.length := by
  refine ⟨?_, ?_, stitch_atrims_eq durs, rfl⟩
  · unfold buildStitchFilter
    exact xfadeGo_length durs _ _ _
  · intro j hj
    obtain ⟨d, tl, rfl⟩ : ∃ d tl, durs = d :: tl := by
      cases durs with
      | nil => simp at h2
      | cons d tl => exact ⟨d, tl, rfl⟩
    unfold buildStitchFilter
    rw [xfadeGo_get? (d :: tl) ((d :: tl).length - 1) 1 ((d :: tl).headD 0) j
      (by simpa using hj) (by simp [Nat.add_comm])]
    simp only [List.headD_cons, List.drop_succ_cons, List.drop_zero, List.take_succ_cons,
      List.sum_cons]

/-- C4 witness: for two clips of durations 2 and 3 the graph has one
crossfade of duration 1 at offset 2 - 1 = 1, audio trims 2 and 3, and
an audio concat of 2 streams. -/
theorem stitch_filter_graph_witness :
    (buildStitchFilter ([(2 : ℚ), 3]).length [(2 : ℚ), 3]).xfades.length = 1 ∧
    (buildStitchFilter ([(2 : ℚ), 3]).length [(2 : ℚ), 3]).xfades.get? 0 =
      some (TRANSITION_DURATION, ([(2 : ℚ), 3].take 1).sum - TRANSITION_DURATION) ∧
    (buildStitchFilter ([(2 : ℚ), 3]).length [(2 : ℚ), 3]).atrims = [(2 : ℚ), 3] ∧
    (buildStitchFilter ([(2 : ℚ), 3]).length [(2 : ℚ), 3]).concatN = 2 := by
  obtain ⟨ha, hb, hc, hd⟩ := stitch_filter_graph [(2 : ℚ), 3] (by norm_num)
  exact ⟨ha, hb 0 (by norm_num), hc, hd⟩

/-! ## Theorems for C5 (Template Compositor configuration guard) -/

/-- C5: an unsupported template id yields the unknown-template
configuration error with no transcoder step planned; every supported
template other than t0 yields the missing-gameplay error when the
gameplay path is blank; t0 needs no gameplay track: with any gameplay
field (including none) it succeeds whenever an AI video path is
present. -/
theorem template_guard (st : TState) :
    (templateIdOf st ∉ SUPPORTED_TEMPLATES →
      apply_template_from_state st =
        Except.error (TemplateError.unknownTemplate (templateIdOf st))) ∧
    (templateIdOf st ∈ SUPPORTED_TEMPLATES → templateIdOf st ≠ "t0".data →
      pyStripWs (st.gameplay_video_path.getD []) = [] →
      apply_template_from_state st =
        Except.error (TemplateError.missingGameplay (templateIdOf st))) ∧
    (templateIdOf st = "t0".data → pyStripWs (st.ai_video_path.getD []) ≠ [] →
      ∃ plan, apply_template_from_state st = Except.ok plan) := by
  refine ⟨?_, ?_, ?_⟩
  · intro h
    unfold apply_template_from_state
    rw [if_pos h]
  · intro hmem hne hgp
    unfold apply_template_from_state
    rw [if_neg (not_not_intro hmem)]
    by_cases h9 : templateIdOf st = "t9".data
    · rw [if_pos h9, if_pos hgp]
    · rw [if_neg h9, if_neg hne, if_pos hgp]
  · intro h0 hai
    have hmem : templateIdOf st ∈ SUPPORTED_TEMPLATES := by
      rw [h0]
      decide
    have h9 : templateIdOf st ≠ "t9".data := by
      rw [h0]
      decide
    unfold apply_template_from_state
    rw [if_neg (not_not_intro hmem), if_neg h9, if_pos h0, if_neg hai]
    exact ⟨_, rfl⟩

/-- C5 witness: the unsupported id t8 fails with the unknown-template
error, and t0 with no gameplay track but an AI video succeeds. -/
theorem template_guard_witness :
    apply_template_from_state ⟨some ("t8".data), none, none, none⟩ =
      Except.error (TemplateError.unknownTemplate
        (templateIdOf ⟨some ("t8".data), none, none, none⟩)) ∧
    (∃ plan, apply_template_from_state ⟨some ("t0".data), none, some ("a.mp4".data), none⟩ =
      Except.ok plan) :=
  ⟨(template_guard ⟨some ("t8".data), none, none, none⟩).1 (by decide),
   (template_guard ⟨some ("t0".data), none, some ("a.mp4".data), none⟩).2.2
     (by decide) (by decide)⟩

/-! ## Theorems for C9 (caption events have end strictly after start) -/

theorem mkEvTimes_lt (o s e : ℚ) : (mkEvTimes o s e).1 < (mkEvTimes o s e).2 := by
  unfold mkEvTimes
  split_ifs with h
  · show o + s < o + s + 1 / 10
    linarith
  · show o + s < o + e
    exact lt_of_not_ge h

theorem wordEventTimes_lt (o le : ℚ) :
    ∀ segs, ∀ ev ∈ wordEventTimes o le segs, ev.1 < ev.2 := by
  intro segs
  induction segs with
  | nil => intro ev hev; simp [wordEventTimes] at hev
  | cons w rest ih =>
    cases rest with
    | nil =>
      intro ev hev
      simp only [wordEventTimes, List.mem_singleton] at hev
      subst hev
      exact mkEvTimes_lt o w.start le
    | cons w2 rest2 =>
      intro ev hev
      simp only [wordEventTimes, List.mem_cons] at hev
      rcases hev with rfl | hev
      · exact mkEvTimes_lt o w.start w2.start
      · exact ih ev hev

theorem sceneEventTimes_lt (segs : List WordSeg) (dur offset : ℚ) :
    ∀ ev ∈ sceneEventTimes segs dur offset, ev.1 < ev.2 := by
  intro ev hev
  cases segs with
  | nil => simp [sceneEventTimes] at hev
  | cons s0 rest =>
    simp only [sceneEventTimes, List.mem_append] at hev
    rcases hev with hev | hev
    · by_cases hfs : 1 / 10 < s0.start
      · rw [if_pos hfs] at hev
        simp only [List.mem_singleton] at hev
        subst hev
        show offset < offset + s0.start
        linarith
      · rw [if_neg hfs] at hev
        simp at hev
    · exact wordEventTimes_lt _ _ _ ev hev

theorem combinedGo_lt :
    ∀ (scenes : List (List WordSeg)) (offset : ℚ) (durs : List ℚ),
      ∀ ev ∈ combinedGo offset scenes durs, ev.1 < ev.2 := by
  intro scenes
  induction scenes with
  | nil => intro o durs ev hev; simp [combinedGo] at hev
  | cons segs rest ih =>
    intro o durs ev hev
    simp only [combinedGo, List.mem_append] at hev
    rcases hev with hev | hev
    · exact sceneEventTimes_lt _ _ _ ev hev
    · exact ih _ _ ev hev

/-- C9: every caption event the Caption Builder emits has a global end
time strictly greater than its global start time, for every input list
of word-segment lists and durations; degenerate or out-of-order word
timestamps are repaired by forcing the end to start + 0.1. -/
theorem caption_events_strict (scenes : List (List WordSeg)) (durs : List ℚ) :
    ∀ ev ∈ generateCombinedEvents scenes durs, ev.1 < ev.2 :=
  combinedGo_lt scenes 0 durs

/-- C9 witness: the single event of a one-scene input runs from 0 to 2,
and 0 < 2. -/
theorem caption_events_strict_witness :
    (((0 : ℚ), (2 : ℚ)) ∈ generateCombinedEvents [[⟨['h', 'i'], 0, 2⟩]] [2]) ∧
    (((0 : ℚ), (2 : ℚ)).1 < ((0 : ℚ), (2 : ℚ)).2) := by
  have hm : ((0 : ℚ), (2 : ℚ)) ∈ generateCombinedEvents [[⟨['h', 'i'], 0, 2⟩]] [2] := by
    norm_num [generateCombinedEvents, combinedGo, sceneEventTimes, wordEventTimes, mkEvTimes]
  exact ⟨hm, caption_events_strict [[⟨['h', 'i'], 0, 2⟩]] [2] ((0 : ℚ), (2 : ℚ)) hm⟩

/-! ## Theorems for C1 (global caption offsets per scene) -/

theorem mkEvTimes_shift (off s e : ℚ) :
    mkEvTimes off s e = (off + (mkEvTimes 0 s e).1, off + (mkEvTimes 0 s e).2) := by
  unfold mkEvTimes
  have hiff : (off + e ≤ off + s) ↔ ((0 : ℚ) + e ≤ 0 + s) := by
    constructor <;> intro h <;> linarith
  split_ifs with h1 h2 h2
  · rw [Prod.mk.injEq]
    exact ⟨by ring, by ring⟩
  · exact absurd (hiff.mp h1) h2
  · exact absurd (hiff.mpr h2) h1
  · rw [Prod.mk.injEq]
    exact ⟨by ring, by ring⟩

theorem wordEventTimes_shift (off le : ℚ) :
    ∀ segs, wordEventTimes off le segs =
      (wordEventTimes 0 le segs).map (fun p => (off + p.1, off + p.2)) := by
  intro segs
  induction segs with
  | nil => simp [wordEventTimes]
  | cons w rest ih =>
    cases rest with
    | nil =>
      simp only [wordEventTimes, List.map_cons, List.map_nil]
      rw [mkEvTimes_shift off w.start le]
    | cons w2 rest2 =>
      show mkEvTimes off w.start w2.start :: wordEventTimes off le (w2 :: rest2) = _
      rw [ih, mkEvTimes_shift off w.start w2.start]
      simp [wordEventTimes, List.map_cons]

theorem sceneEventTimes_shift (segs : List WordSeg) (dur off : ℚ) :
    sceneEventTimes segs dur off =
      (sceneEventTimes segs dur 0).map (fun p => (off + p.1, off + p.2)) := by
  cases segs with
  | nil => simp [sceneEventTimes]
  | cons s0 rest =>
    simp only [sceneEventTimes, List.map_append]
    congr 1
    · by_cases h : 1 / 10 < s0.start
      · rw [if_pos h, if_pos h]
        simp
      · rw [if_neg h, if_neg h]
        simp
    · exact wordEventTimes_shift off _ (s0 :: rest)

theorem effDur_zero (durs : List ℚ) : effDur durs 0 = durs.headD 5 := by
  cases durs with
  | nil => simp [effDur]
  | cons d tl => simp [effDur]

theorem effDur_succ (durs : List ℚ) (k : ℕ) : effDur durs (k + 1) = effDur durs.tail k := by
  cases durs with
  | nil => simp [effDur]
  | cons d tl => simp [effDur]

theorem offsetSum_zero (durs : List ℚ) : offsetSum durs 0 = 0 := by
  simp [offsetSum]

theorem offsetSum_succ (durs : List ℚ) (k : ℕ) :
    offsetSum durs (k + 1) = durs.headD 5 + offsetSum durs.tail k := by
  unfold offsetSum
  rw [List.range_succ_eq_map]
  simp only [List.map_cons, List.sum_cons, List.map_map]
  rw [effDur_zero]
  refine congrArg (durs.headD 5 + ·) (congrArg List.sum ?_)
  apply List.map_congr_left
  intro a _
  exact effDur_succ durs a

theorem combinedGo_block :
    ∀ (scenes : List (List WordSeg)) (k : ℕ) (segs : List WordSeg) (durs : List ℚ) (off : ℚ),
      scenes.get? k = some segs →
      ∃ pre post, combinedGo off scenes durs =
        pre ++ sceneEventTimes segs (effDur durs k) (off + offsetSum durs k) ++ post := by
  intro scenes
  induction scenes with
  | nil => intro k segs durs off h; simp at h
  | cons s rest ih =>
    intro k segs durs off h
    cases k with
    | zero =>
      simp only [List.get?_cons_zero, Option.some.injEq] at h
      subst h
      refine ⟨[], combinedGo (off + durs.headD 5) rest durs.tail, ?_⟩
      simp only [combinedGo, List.nil_append]
      rw [effDur_zero, offsetSum_zero, add_zero]
    | succ k =>
      simp only [List.get?_cons_succ] at h
      obtain ⟨pre, post, heq⟩ := ih k segs durs.tail (off + durs.headD 5) h
      refine ⟨sceneEventTimes s (durs.headD 5) off ++ pre, post, ?_⟩
      simp only [combinedGo]
      rw [heq, effDur_succ, offsetSum_succ, ← add_assoc off (durs.headD 5) (offsetSum durs.tail k)]
      simp [List.append_assoc]

/-- C1: the events the Caption Builder emits for scene k form a
contiguous block whose times are exactly the scene-local event times
shifted by the sum of the effective durations of scenes 0..k-1 (each
missing duration contributing the fallback 5.0), regardless of whether
earlier scenes had any segments. -/
theorem caption_scene_offset (scenes : List (List WordSeg)) (durs : List ℚ)
    (k : ℕ) (segs : List WordSeg) (hk : scenes.get? k = some segs) :
    ∃ pre post,
      generateCombinedEvents scenes durs =
        pre ++ sceneEventTimes segs (effDur durs k) (offsetSum durs k) ++ post ∧
      sceneEventTimes segs (effDur durs k) (offsetSum durs k) =
        (sceneEventTimes segs (effDur durs k) 0).map
          (fun p => (offsetSum durs k + p.1, offsetSum durs k + p.2)) := by
  obtain ⟨pre, post, heq⟩ := combinedGo_block scenes k segs durs 0 hk
  refine ⟨pre, post, ?_, sceneEventTimes_shift segs _ _⟩
  unfold generateCombinedEvents
  rw [heq, zero_add]

/-- C1 witness: with an empty first scene of duration 2, the second
scene's caption block is offset by exactly 2. -/
theorem caption_scene_offset_witness :
    ∃ pre post,
      generateCombinedEvents [[], [⟨['h', 'i'], 0, 2⟩]] [(2 : ℚ), 3] =
        pre ++ sceneEventTimes [⟨['h', 'i'], 0, 2⟩] (effDur [(2 : ℚ), 3] 1)
          (offsetSum [(2 : ℚ), 3] 1) ++ post ∧
      sceneEventTimes [⟨['h', 'i'], 0, 2⟩] (effDur [(2 : ℚ), 3] 1)
          (offsetSum [(2 : ℚ), 3] 1) =
        (sceneEventTimes [⟨['h', 'i'], 0, 2⟩] (effDur [(2 : ℚ), 3] 1) 0).map
          (fun p => (offsetSum [(2 : ℚ), 3] 1 + p.1, offsetSum [(2 : ℚ), 3] 1 + p.2)) :=
  caption_scene_offset [[], [⟨['h', 'i'], 0, 2⟩]] [(2 : ℚ), 3] 1 [⟨['h', 'i'], 0, 2⟩] rfl

/-! ## Theorems for C10 (line wrapping preserves content) -/

theorem hasNL_nil : hasNL [] = false := rfl

theorem hasNL_single (c : Char) : hasNL [c] = false := rfl

theorem spJoin_singleton (l : List Char) : spJoin [l] = l := rfl

theorem hasNL_space_cons (b : List Char) (hb : hasNL b = false) :
    hasNL (' ' :: b) = false := by
  cases b with
  | nil => rfl
  | cons c bs =>
    simp only [hasNL]
    simp [hb]

theorem hasNL_append_space (a : List Char) :
    ∀ b, hasNL a = false → hasNL b = false → hasNL (a ++ ' ' :: b) = false := by
  induction a with
  | nil =>
    intro b _ hb
    simpa using hasNL_space_cons b hb
  | cons x a' ih =>
    intro b ha hb
    cases a' with
    | nil =>
      have h2 : hasNL (' ' :: b) = false := hasNL_space_cons b hb
      simp only [List.cons_append, List.nil_append, hasNL]
      simp [h2]
    | cons y a'' =>
      simp only [hasNL, Bool.or_eq_false_iff] at ha
      have hrec : hasNL ((y :: a'') ++ ' ' :: b) = false := ih b ha.2 hb
      simp only [List.cons_append, hasNL, Bool.or_eq_false_iff]
      exact ⟨ha.1, by simpa using hrec⟩

theorem spJoin_hasNL :
    ∀ groups : List (List Char), (∀ p ∈ groups, hasNL p = false) →
      hasNL (spJoin groups) = false := by
  intro groups
  induction groups with
  | nil => intro _; rfl
  | cons l rest ih =>
    intro h
    cases rest with
    | nil => exact h l (by simp)
    | cons l2 ls =>
      show hasNL (l ++ ' ' :: spJoin (l2 :: ls)) = false
      exact hasNL_append_space l _ (h l (by simp))
        (ih (fun p hp => h p (List.mem_cons_of_mem _ hp)))

theorem pyReplaceNL_no_marker :
    ∀ l : List Char, hasNL l = false → pyReplaceNL l = l := by
  intro l
  induction l with
  | nil => intro _; rfl
  | cons a l' ih =>
    intro h
    cases l' with
    | nil => rfl
    | cons b t =>
      simp only [hasNL, Bool.or_eq_false_iff] at h
      have hcond : ¬ (a = '\\' ∧ b = 'N') := by
        intro hab
        have : (decide (a = '\\') && decide (b = 'N')) = true := by
          simp [hab.1, hab.2]
        simp only [this] at h
        exact absurd h.1 (by simp)
      show (if a = '\\' ∧ b = 'N' then ' ' :: pyReplaceNL t else a :: pyReplaceNL (b :: t)) =
        a :: b :: t
      rw [if_neg hcond, ih h.2]

theorem pyReplaceNL_splice :
    ∀ l : List Char, hasNL l = false → ∀ rest,
      pyReplaceNL (l ++ '\\' :: 'N' :: rest) = l ++ ' ' :: pyReplaceNL rest := by
  intro l
  induction l with
  | nil =>
    intro _ rest
    show (if ('\\' : Char) = '\\' ∧ ('N' : Char) = 'N' then ' ' :: pyReplaceNL rest
      else '\\' :: pyReplaceNL ('N' :: rest)) = ' ' :: pyReplaceNL rest
    rw [if_pos ⟨rfl, rfl⟩]
  | cons x l' ih =>
    intro h rest
    cases l' with
    | nil =>
      show (if x = '\\' ∧ ('\\' : Char) = 'N' then ' ' :: pyReplaceNL ('N' :: rest)
        else x :: pyReplaceNL ('\\' :: 'N' :: rest)) = x :: ' ' :: pyReplaceNL rest
      rw [if_neg (by simp)]
      have : pyReplaceNL ('\\' :: 'N' :: rest) = ' ' :: pyReplaceNL rest := by
        show (if ('\\' : Char) = '\\' ∧ ('N' : Char) = 'N' then ' ' :: pyReplaceNL rest
          else '\\' :: pyReplaceNL ('N' :: rest)) = ' ' :: pyReplaceNL rest
        rw [if_pos ⟨rfl, rfl⟩]
      rw [this]
    | cons y l'' =>
      simp only [hasNL, Bool.or_eq_false_iff] at h
      have hcond : ¬ (x = '\\' ∧ y = 'N') := by
        intro hab
        have : (decide (x = '\\') && decide (y = 'N')) = true := by
          simp [hab.1, hab.2]
        simp only [this] at h
        exact absurd h.1 (by simp)
      show (if x = '\\' ∧ y = 'N' then ' ' :: pyReplaceNL (l'' ++ '\\' :: 'N' :: rest)
        else x :: pyReplaceNL (y :: l'' ++ '\\' :: 'N' :: rest)) =
        x :: (y :: l'') ++ ' ' :: pyReplaceNL rest
      rw [if_neg hcond]
      have hrec := ih h.2 rest
      simp only [List.cons_append] at hrec ⊢
      rw [hrec]

theorem pyReplaceNL_nlJoin :
    ∀ ls : List (List Char), (∀ l ∈ ls, hasNL l = false) →
      pyReplaceNL (nlJoin ls) = spJoin ls := by
  intro ls
  induction ls with
  | nil => intro _; rfl
  | cons l rest ih =>
    intro h
    cases rest with
    | nil => exact pyReplaceNL_no_marker l (h l (by simp))
    | cons l2 ls2 =>
      show pyReplaceNL (l ++ '\\' :: 'N' :: nlJoin (l2 :: ls2)) = l ++ ' ' :: spJoin (l2 :: ls2)
      rw [pyReplaceNL_splice l (h l (by simp)),
        ih (fun p hp => h p (List.mem_cons_of_mem _ hp))]

theorem wrapGo_lines_prepend (maxW : ℕ) :
    ∀ (parts lines cur : List (List Char)) (n : ℕ),
      wrapGo maxW lines cur n parts = lines ++ wrapGo maxW [] cur n parts := by
  intro parts
  induction parts with
  | nil =>
    intro lines cur n
    by_cases hc : cur = []
    · simp [wrapGo, hc]
    · simp [wrapGo, hc]
  | cons part parts ih =>
    intro lines cur n
    by_cases hcond : n + (stripDelimited '{' '}' part).length + 1 ≤ maxW ∨ cur = []
    · simp only [wrapGo, if_pos hcond]
      exact ih lines (cur ++ [part]) _
    · simp only [wrapGo, if_neg hcond]
      rw [ih (lines ++ [spJoin cur]) [part] _, ih ([] ++ [spJoin cur]) [part] _]
      simp [List.append_assoc]

theorem wrapGo_ne_nil (maxW : ℕ) :
    ∀ (parts cur : List (List Char)) (n : ℕ), cur ≠ [] →
      wrapGo maxW [] cur n parts ≠ [] := by
  intro parts
  induction parts with
  | nil =>
    intro cur n hc
    simp [wrapGo, hc]
  | cons part parts ih =>
    intro cur n hc
    by_cases hcond : n + (stripDelimited '{' '}' part).length + 1 ≤ maxW ∨ cur = []
    · simp only [wrapGo, if_pos hcond]
      exact ih (cur ++ [part]) _ (by simp)
    · simp only [wrapGo, if_neg hcond]
      rw [wrapGo_lines_prepend maxW parts ([] ++ [spJoin cur]) [part] _]
      simp

theorem spJoin_append (a : List (List Char)) :
    ∀ b, a ≠ [] → b ≠ [] → spJoin (a ++ b) = spJoin a ++ ' ' :: spJoin b := by
  induction a with
  | nil => intro b ha _; exact absurd rfl ha
  | cons x a' ih =>
    intro b _ hb
    cases a' with
    | nil =>
      cases b with
      | nil => exact absurd rfl hb
      | cons y ys => rfl
    | cons x2 a'' =>
      show spJoin (x :: (x2 :: a'') ++ b) = (x ++ ' ' :: spJoin (x2 :: a'')) ++ ' ' :: spJoin b
      have hrec := ih b (by simp) hb
      show x ++ ' ' :: spJoin ((x2 :: a'') ++ b) = (x ++ ' ' :: spJoin (x2 :: a'')) ++ ' ' :: spJoin b
      rw [hrec]
      simp [List.append_assoc]

theorem wrapGo_join (maxW : ℕ) :
    ∀ (parts cur : List (List Char)) (n : ℕ), cur ≠ [] →
      spJoin (wrapGo maxW [] cur n parts) = spJoin (cur ++ parts) := by
  intro parts
  induction parts with
  | nil =>
    intro cur n hc
    simp [wrapGo, hc, spJoin_singleton]
  | cons part parts ih =>
    intro cur n hc
    by_cases hcond : n + (stripDelimited '{' '}' part).length + 1 ≤ maxW ∨ cur = []
    · simp only [wrapGo, if_pos hcond]
      rw [ih (cur ++ [part]) _ (by simp)]
      simp [List.append_assoc]
    · simp only [wrapGo, if_neg hcond]
      rw [wrapGo_lines_prepend maxW parts ([] ++ [spJoin cur]) [part] _]
      have h1 : spJoin (([] ++ [spJoin cur]) ++ wrapGo maxW [] [part] ((stripDelimited '{' '}' part).length + 1) parts) =
          spJoin ([spJoin cur]) ++ ' ' :: spJoin (wrapGo maxW [] [part] ((stripDelimited '{' '}' part).length + 1) parts) := by
        rw [List.nil_append]
        exact spJoin_append [spJoin cur] _ (by simp) (wrapGo_ne_nil maxW parts [part] _ (by simp))
      rw [h1, ih [part] _ (by simp)]
      rw [spJoin_append cur (part :: parts) hc (by simp), spJoin_singleton]
      simp

theorem wrapGo_lines_marker_free (maxW : ℕ) :
    ∀ (parts lines cur : List (List Char)) (n : ℕ),
      (∀ l ∈ lines, hasNL l = false) → (∀ p ∈ cur, hasNL p = false) →
      (∀ p ∈ parts, hasNL p = false) →
      ∀ l ∈ wrapGo maxW lines cur n parts, hasNL l = false := by
  intro parts
  induction parts with
  | nil =>
    intro lines cur n hlines hcur _ l hl
    by_cases hc : cur = []
    · rw [wrapGo, if_pos hc] at hl
      exact hlines l hl
    · rw [wrapGo, if_neg hc] at hl
      rcases List.mem_append.mp hl with hmem | hmem
      · exact hlines l hmem
      · rw [List.mem_singleton] at hmem
        subst hmem
        exact spJoin_hasNL cur hcur
  | cons part parts ih =>
    intro lines cur n hlines hcur hparts l hl
    by_cases hcond : n + (stripDelimited '{' '}' part).length + 1 ≤ maxW ∨ cur = []
    · rw [wrapGo, if_pos hcond] at hl
      refine ih lines (cur ++ [part]) _ hlines ?_ (fun p hp => hparts p (List.mem_cons_of_mem _ hp)) l hl
      intro p hp
      rcases List.mem_append.mp hp with hp | hp
      · exact hcur p hp
      · rw [List.mem_singleton] at hp
        subst hp
        exact hparts p (List.mem_cons_self _ _)
    · rw [wrapGo, if_neg hcond] at hl
      refine ih (lines ++ [spJoin cur]) [part] _ ?_ ?_
        (fun p hp => hparts p (List.mem_cons_of_mem _ hp)) l hl
      · intro q hq
        rcases List.mem_append.mp hq with hq | hq
        · exact hlines q hq
        · rw [List.mem_singleton] at hq
          subst hq
          exact spJoin_hasNL cur hcur
      · intro q hq
        rw [List.mem_singleton] at hq
        subst hq
        exact hparts q (List.mem_cons_self _ _)

theorem splitSp_ne_nil : ∀ s : List Char, splitSp s ≠ [] := by
  intro s
  cases s with
  | nil => simp [splitSp]
  | cons c rest =>
    by_cases hc : c = ' '
    · simp [splitSp, hc]
    · cases hsp : splitSp rest with
      | nil => simp [splitSp, hc, hsp]
      | cons p ps => simp [splitSp, hc, hsp]

theorem spJoin_splitSp : ∀ s : List Char, spJoin (splitSp s) = s := by
  intro s
  induction s with
  | nil => rfl
  | cons c rest ih =>
    by_cases hc : c = ' '
    · cases hsp : splitSp rest with
      | nil => exact absurd hsp (splitSp_ne_nil rest)
      | cons p ps =>
        rw [splitSp, if_pos hc]
        rw [hsp] at ih ⊢
        show ([] : List Char) ++ ' ' :: spJoin (p :: ps) = c :: rest
        rw [List.nil_append, hc, ih]
    · cases hsp : splitSp rest with
      | nil => exact absurd hsp (splitSp_ne_nil rest)
      | cons p ps =>
        rw [splitSp, if_neg hc, hsp]
        rw [hsp] at ih
        cases ps with
        | nil =>
          show spJoin [c :: p] = c :: rest
          rw [spJoin_singleton]
          have : spJoin [p] = p := spJoin_singleton p
          rw [this] at ih
          rw [ih]
        | cons q qs =>
          show (c :: p) ++ ' ' :: spJoin (q :: qs) = c :: rest
          have : p ++ ' ' :: spJoin (q :: qs) = rest := ih
          rw [List.cons_append, this]

theorem splitSp_no_marker : ∀ s : List Char, hasNL s = false →
    ∀ p ∈ splitSp s, hasNL p = false := by
  intro s
  induction s with
  | nil =>
    intro _ p hp
    rw [show splitSp [] = [[]] from rfl, List.mem_singleton] at hp
    subst hp
    rfl
  | cons c rest ih =>
    intro h p hp
    have hrest : hasNL rest = false := by
      cases rest with
      | nil => rfl
      | cons b t =>
        simp only [hasNL, Bool.or_eq_false_iff] at h
        exact h.2
    by_cases hc : c = ' '
    · rw [splitSp, if_pos hc] at hp
      rcases List.mem_cons.mp hp with rfl | hp2
      · rfl
      · exact ih hrest p hp2
    · cases hsp : splitSp rest with
      | nil => exact absurd hsp (splitSp_ne_nil rest)
      | cons q qs =>
        rw [splitSp, if_neg hc, hsp] at hp
        rcases List.mem_cons.mp hp with rfl | hp2
        · cases hq : q with
          | nil => rfl
          | cons d q' =>
            have hqm : hasNL (d :: q') = false := by
              refine ih hrest (d :: q') ?_
              rw [hsp, hq]
              exact List.mem_cons_self _ _
            have hd : ∃ t, rest = d :: t := by
              cases rest with
              | nil =>
                rw [show splitSp [] = [[]] from rfl] at hsp
                rw [hq] at hsp
                simp at hsp
              | cons e t =>
                by_cases he : e = ' '
                · rw [splitSp, if_pos he] at hsp
                  rw [hq] at hsp
                  simp at hsp
                · cases hsp2 : splitSp t with
                  | nil => exact absurd hsp2 (splitSp_ne_nil t)
                  | cons r rs =>
                    rw [splitSp, if_neg he, hsp2] at hsp
                    rw [hq] at hsp
                    injection hsp with h1 _
                    injection h1 with he1 _
                    exact ⟨t, by rw [he1]⟩
            obtain ⟨t, ht⟩ := hd
            rw [ht] at h
            simp only [hasNL, Bool.or_eq_false_iff] at h ⊢
            exact ⟨h.1, hqm⟩
        · exact ih hrest p (by rw [hsp]; exact List.mem_cons_of_mem _ hp2)

theorem wrapGo_start (maxW : ℕ) (p : List Char) (ps : List (List Char)) :
    wrapGo maxW [] [] 0 (p :: ps) =
      wrapGo maxW [] [p] ((stripDelimited '{' '}' p).length + 1) ps := by
  rw [wrapGo, if_pos (Or.inr rfl)]
  simp

/-- C10: for every caption text containing no literal line-break
marker, replacing each marker in the wrapped output of
smart_wrap_with_tags with a single space yields the input exactly:
wrapping only turns some inter-part spaces into line breaks. -/
theorem smart_wrap_roundtrip (text : List Char) (h : hasNL text = false) :
    pyReplaceNL (smart_wrap_with_tags text 35) = text := by
  unfold smart_wrap_with_tags
  obtain ⟨p, ps, hsp⟩ : ∃ p ps, splitSp text = p :: ps := by
    cases hsp : splitSp text with
    | nil => exact absurd hsp (splitSp_ne_nil text)
    | cons p ps => exact ⟨p, ps, rfl⟩
  have hparts : ∀ q ∈ splitSp text, hasNL q = false := splitSp_no_marker text h
  rw [hsp] at hparts
  rw [hsp, wrapGo_start]
  have hlines : ∀ l ∈ wrapGo 35 [] [p] ((stripDelimited '{' '}' p).length + 1) ps,
      hasNL l = false := by
    refine wrapGo_lines_marker_free 35 ps [] [p] _ (by simp) ?_ ?_
    · intro q hq
      rw [List.mem_singleton] at hq
      subst hq
      exact hparts q (List.mem_cons_self _ _)
    · intro q hq
      exact hparts q (List.mem_cons_of_mem _ hq)
  rw [pyReplaceNL_nlJoin _ hlines]
  rw [wrapGo_join 35 ps [p] _ (by simp)]
  have : ([p] ++ ps : List (List Char)) = p :: ps := by simp
  rw [this, ← hsp, spJoin_splitSp]

/-- C10 witness: the round trip holds at the concrete two-word text. -/
theorem smart_wrap_roundtrip_witness :
    hasNL ['h', 'i', ' ', 'y', 'o'] = false ∧
    pyReplaceNL (smart_wrap_with_tags ['h', 'i', ' ', 'y', 'o'] 35) =
      ['h', 'i', ' ', 'y', 'o'] :=
  ⟨by decide, smart_wrap_roundtrip ['h', 'i', ' ', 'y', 'o'] (by decide)⟩

end VidGen
